import Mathlib

/- Shallow embedding of the QUIC-Multiple-Flows repository: `server.py`
(`QuicServer.send_file`, `QuicServer.close`, `QuicServer.set_up_server`) and
`client.py` (`QuicClient.recv_file`).  File contents and wire payloads are
lists of naturals (bytes); Python ints appearing in `struct` headers are
`Int` with explicit two's-complement reduction mod 2^32. -/

namespace QuicMF

/-- Pointwise update of a function at one point (assignment to
`curret_package[id_stream]` / `file_buffers[id_stream]`). -/
def upd {α : Type} (f : Nat → α) (t : Nat) (v : α) : Nat → α :=
  fun u => if u = t then v else f u

/-- A frame header as the receiver decodes it: `struct.unpack('!iii', header)`
gives `(id_stream, data_length, id_package)` (client.py line 82); the sender
packs `(id_stream, len(package), i)` (server.py line 87). -/
structure Frame where
  id_stream : Nat
  data_length : Nat
  id_package : Nat
deriving DecidableEq, Repr

/-- `package = file_data[i * package_size : (i + 1) * package_size]`
(server.py line 86). -/
def package (file_data : List Nat) (package_size i : Nat) : List Nat :=
  (file_data.drop (i * package_size)).take package_size

/-- `num_packages = (total_length + package_size - 1) // package_size`
(server.py line 81). -/
def num_packages (total_length package_size : Nat) : Nat :=
  (total_length + package_size - 1) / package_size

/-- The data frames emitted by the loop of `QuicServer.send_file`
(server.py lines 85-90): frame `i` carries chunk `i` of the file together with
this stream's id, the chunk's length and sequence number `i`. -/
def dataFrames (id_stream : Nat) (file_data : List Nat) (package_size : Nat) :
    List (Frame × List Nat) :=
  (List.range (num_packages file_data.length package_size)).map fun i =>
    (⟨id_stream, (package file_data package_size i).length, i⟩,
      package file_data package_size i)

/-- `QuicServer.send_file` (server.py lines 80-98): the data frames, followed by
the end-of-file marker `struct.pack('!iii', id_stream, 0, 0)` (line 98), which
carries no payload. -/
def send_file (id_stream : Nat) (file_data : List Nat) (package_size : Nat) :
    List (Frame × List Nat) :=
  dataFrames id_stream file_data package_size ++ [(⟨id_stream, 0, 0⟩, [])]

/-- Frames for consecutive payloads of one stream, sequence numbers counting up
from `k` (the shape in which `send_file`'s data frames reach the receiver). -/
def framesOf (id_stream k : Nat) : List (List Nat) → List (Frame × List Nat)
  | [] => []
  | p :: ps => (⟨id_stream, p.length, k⟩, p) :: framesOf id_stream (k + 1) ps

/-! ### The `struct.pack('!iii', ...)` codec -/

/-- Big-endian two's-complement encoding of one `!i` field into 4 bytes. -/
def toBytes4 (x : Int) : List Nat :=
  let u := (x % 4294967296).toNat
  [u / 16777216 % 256, u / 65536 % 256, u / 256 % 256, u % 256]

/-- Decoding one signed big-endian 32-bit field from 4 bytes. -/
def ofBytes4 (b3 b2 b1 b0 : Nat) : Int :=
  let u := b3 * 16777216 + b2 * 65536 + b1 * 256 + b0
  if u < 2147483648 then (u : Int) else (u : Int) - 4294967296

/-- `struct.pack('!iii', a, b, c)` (server.py lines 87 and 98). -/
def pack_iii (a b c : Int) : List Nat :=
  toBytes4 a ++ toBytes4 b ++ toBytes4 c

/-- `struct.unpack('!iii', bytes)` (client.py line 82): demands exactly 12
bytes, raising `struct.error` (`none`) otherwise. -/
def unpack_iii : List Nat → Option (Int × Int × Int)
  | [a3, a2, a1, a0, b3, b2, b1, b0, c3, c2, c1, c0] =>
      some (ofBytes4 a3 a2 a1 a0, ofBytes4 b3 b2 b1 b0, ofBytes4 c3 c2 c1 c0)
  | _ => none

/-! ### The receiver's stream state and commit logic (`QuicClient.recv_file`) -/

/-- Receiver-side shared state, initialized in client.py lines 163-164:
`file_buffers = {i: bytearray() for i in range(number_of_files)}` (`none`
models a stream id absent from the dict) and
`curret_package = [0] * number_of_files`. -/
structure RecvState where
  curret_package : Nat → Nat
  file_buffers : Nat → Option (List Nat)

def recvInit (number_of_files : Nat) : RecvState :=
  { curret_package := fun _ => 0
    file_buffers := fun s => if s < number_of_files then some [] else none }

/-- The commit step of `QuicClient.recv_file` (client.py lines 96-104): a frame
whose stream id is not in `file_buffers` is dropped and the worker moves on; a
frame for a known stream is committed — buffer extended, counter incremented —
once `curret_package[id_stream] == id_package`.  In this sequential embedding a
frame arriving with the wrong sequence number makes the busy-wait spin forever
(`none`), since no other worker could advance the counter. -/
def commit (st : RecvState) (f : Frame) (package : List Nat) : Option RecvState :=
  match st.file_buffers f.id_stream with
  | none => some st
  | some buf =>
      if st.curret_package f.id_stream = f.id_package then
        some { curret_package := upd st.curret_package f.id_stream
                 (st.curret_package f.id_stream + 1)
               file_buffers := upd st.file_buffers f.id_stream (some (buf ++ package)) }
      else none

/-- Delivering a list of already-decoded data frames to the commit logic of
`QuicClient.recv_file`, in order. -/
def runCommits : List (Frame × List Nat) → RecvState → Option RecvState
  | [], st => some st
  | (f, p) :: rest, st =>
      match commit st f p with
      | none => none
      | some st' => runCommits rest st'

inductive StopReason
  | eof
  | terminal
deriving DecidableEq, Repr

/-- One receiver worker's loop in `QuicClient.recv_file` (client.py lines
73-104) at frame granularity: the input lists the frames this worker pulls off
the shared connection, in order.  The loop `break`s when `recv` returns no
header (`.eof`, lines 78-80) or when the decoded `data_length` is `0`
(`.terminal`, lines 85-86); otherwise the frame is committed and the loop
continues.  The result also returns the frames this worker leaves unread. -/
def recv_file : List (Frame × List Nat) → RecvState →
    Option (RecvState × StopReason × List (Frame × List Nat))
  | [], st => some (st, .eof, [])
  | (f, p) :: rest, st =>
      if f.data_length = 0 then some (st, .terminal, rest)
      else
        match commit st f p with
        | none => none
        | some st' => recv_file rest st'

/-! ### `QuicClient.recv_file` at byte granularity (`socket.recv`) -/

inductive StopKind
  | eof
  | terminal
  | error
deriving DecidableEq, Repr

/-- `socket.recv(n)` on a reliable, in-order byte stream: returns at most `n`
bytes — how many are delivered by one call (`avail`) is the transport's choice,
not the caller's. -/
def recvBytes (n avail : Nat) (wire : List Nat) : List Nat × List Nat :=
  (wire.take (min n avail), wire.drop (min n avail))

/-- One receiver worker's loop in `QuicClient.recv_file` (client.py lines
73-104) at byte granularity.  `sched` lists, per `socket.recv` call, how many
bytes the transport delivers; `wire` is the remaining byte stream.  Per
iteration: `header = recv(12)` (line 77); an empty result breaks the loop
(`.eof`); `struct.unpack('!iii', header)` on a short header raises, which the
`except` clause prints before breaking (`.error`, lines 90-93); a zero
`data_length` breaks (`.terminal`); otherwise `package = recv(data_length)`
(line 89) and the frame is committed.  `none` models an execution that blocks
(schedule exhausted, or the busy-wait spinning forever). -/
def recv_file_bytes : List Nat → List Nat → RecvState → Option (RecvState × StopKind)
  | [], _, _ => none
  | a :: sched, wire, st =>
      let hd := recvBytes 12 a wire
      if hd.1.length = 0 then some (st, .eof)
      else
        match unpack_iii hd.1 with
        | none => some (st, .error)
        | some (ids, len, seq) =>
            if len = 0 then some (st, .terminal)
            else
              match sched with
              | [] => none
              | b :: sched' =>
                  let pl := recvBytes len.toNat b hd.2
                  match commit st ⟨ids.toNat, len.toNat, seq.toNat⟩ pl.1 with
                  | none => none
                  | some st' => recv_file_bytes sched' pl.2 st'

/-! ### The shared-connection lock (`self.lock`) as a small-step machine

`QuicServer.send_file` writes each frame as `with self.lock: send(header);
send(package)` (server.py lines 88-90) and the end-of-file marker as
`with self.lock: send(...)` (lines 97-98).  Each sender thread is a sequence
of critical-section blocks; a block is the list of chunks it sends while
holding the lock.  The receiver workers' guarded reads (client.py lines 74-89)
have the same acquire/io/io/release shape. -/

inductive Instr
  | acquire
  | send (chunk : List Nat)
  | release
deriving DecidableEq, Repr

/-- The instruction sequence of one critical section: acquire the lock, emit
the block's chunks, release. -/
def blockProg (b : List (List Nat)) : List Instr :=
  Instr.acquire :: (b.map Instr.send ++ [Instr.release])

/-- A whole thread: its critical sections, in program order. -/
def blocksProg (bs : List (List (List Nat))) : List Instr :=
  (bs.map blockProg).flatten

/-- Global state: who holds `self.lock`, each thread's remaining instructions
(thread = list index), and the bytes on the wire, tagged with the sending
thread. -/
structure Sys where
  lock : Option Nat
  progs : List (List Instr)
  wire : List (Nat × List Nat)
deriving Repr

/-- Interleaving semantics: any thread whose next instruction is enabled may
step.  `threading.Lock.acquire` blocks until the lock is free; `send` and
`release` are unrestricted — mutual exclusion is a property of the
well-bracketed programs, not of the raw semantics. -/
inductive Step : Sys → Sys → Prop
  | acquire (s : Sys) (t : Nat) (rest : List Instr) :
      s.lock = none → s.progs[t]? = some (Instr.acquire :: rest) →
      Step s ⟨some t, s.progs.set t rest, s.wire⟩
  | send (s : Sys) (t : Nat) (c : List Nat) (rest : List Instr) :
      s.progs[t]? = some (Instr.send c :: rest) →
      Step s ⟨s.lock, s.progs.set t rest, s.wire ++ [(t, c)]⟩
  | release (s : Sys) (t : Nat) (rest : List Instr) :
      s.progs[t]? = some (Instr.release :: rest) →
      Step s ⟨none, s.progs.set t rest, s.wire⟩

def Steps : Sys → Sys → Prop := Relation.ReflTransGen Step

/-- The pool at start: lock free, every thread at its first instruction,
nothing on the wire. -/
def initSys (blocks : List (List (List (List Nat)))) : Sys :=
  ⟨none, blocks.map blocksProg, []⟩

/-- The wire contribution of one completed critical section of thread `t`. -/
def tagged (t : Nat) (b : List (List Nat)) : List (Nat × List Nat) :=
  b.map fun c => (t, c)

/-- The wire made of whole, never-interleaved critical sections. -/
def wireOf (done : List (Nat × List (List Nat))) : List (Nat × List Nat) :=
  (done.map fun x => tagged x.1 x.2).flatten

/-- The completed critical sections of thread `t`, in wire order. -/
def perThread (done : List (Nat × List (List Nat))) (t : Nat) : List (List (List Nat)) :=
  (done.filter fun x => x.1 == t).map fun x => x.2

/-- The critical sections `QuicServer.send_file` runs for one stream: one
two-send block `[header, payload]` per data frame (server.py lines 88-90), then
the one-send end-of-file block (lines 97-98). -/
def sendFileBlocks (id_stream : Nat) (file_data : List Nat) (package_size : Nat) :
    List (List (List Nat)) :=
  ((List.range (num_packages file_data.length package_size)).map fun i =>
    [pack_iii id_stream (package file_data package_size i).length i,
      package file_data package_size i])
  ++ [[pack_iii id_stream 0 0]]

/-- Invariant of the lock machine: the wire so far is a concatenation of whole
critical sections (plus the lock holder's partial one), and the sections
completed by each thread are a prefix of its program's sections. -/
def Inv (blocks : List (List (List (List Nat)))) (s : Sys) : Prop :=
  ∃ done : List (Nat × List (List Nat)), ∃ k : Nat → Nat,
    s.progs.length = blocks.length ∧
    (∀ t, perThread done t = (blocks.getD t []).take (k t)) ∧
    ((s.lock = none ∧ s.wire = wireOf done ∧
        ∀ t, s.progs.getD t [] = blocksProg ((blocks.getD t []).drop (k t)))
      ∨ (∃ t sent todo rest,
          s.lock = some t ∧
          (blocks.getD t []).drop (k t) = (sent ++ todo) :: rest ∧
          s.progs.getD t [] = todo.map Instr.send ++ Instr.release :: blocksProg rest ∧
          s.wire = wireOf done ++ tagged t sent ∧
          ∀ u, u ≠ t → s.progs.getD u [] = blocksProg ((blocks.getD u []).drop (k u))))

/-! ### `QuicServer.close`: the statistics aggregator -/

/-- One per-stream transfer statistic, the tuple `QuicServer.send_file` puts on
the result queue (server.py line 101). -/
structure FileStat where
  file_path : String
  sum_bytes : Nat
  num_packages : Nat
  avg_bytes_per_sec : ℚ
  avg_packages_per_sec : ℚ
  total_time_in_sec : ℚ
  time_until_sending : ℚ
deriving DecidableEq

structure CloseStats where
  sum_bytes : Nat
  sum_packages : Nat
  total_time : ℚ
  avg_bytes_per_sec : ℚ
  avg_packages_per_sec : ℚ
deriving DecidableEq, Repr

/-- The accumulation loop of `QuicServer.close` (server.py lines 110-119): one
pass over the statistics accumulating `sum_bytes`, `sum_packages` and
`total_time` (the running maximum of `file_stat[5]`, seeded with `0`). -/
def closeAcc (statistic : List FileStat) : Nat × Nat × ℚ :=
  statistic.foldl
    (fun acc file_stat =>
      (acc.1 + file_stat.sum_bytes, acc.2.1 + file_stat.num_packages,
        if file_stat.total_time_in_sec > acc.2.2 then file_stat.total_time_in_sec
        else acc.2.2))
    ((0 : Nat), (0 : Nat), (0 : ℚ))

/-- `QuicServer.close` (server.py lines 110-131): the accumulated totals, then
the global rates — totals divided by `total_time` when `total_time > 0`, else
`0` (lines 124-128). -/
def close (statistic : List FileStat) : CloseStats :=
  if (closeAcc statistic).2.2 > 0 then
    ⟨(closeAcc statistic).1, (closeAcc statistic).2.1, (closeAcc statistic).2.2,
      ((closeAcc statistic).1 : ℚ) / (closeAcc statistic).2.2,
      ((closeAcc statistic).2.1 : ℚ) / (closeAcc statistic).2.2⟩
  else
    ⟨(closeAcc statistic).1, (closeAcc statistic).2.1, (closeAcc statistic).2.2, 0, 0⟩

/-! ### `QuicServer.set_up_server`: the handshake echo check -/

/-- ASCII decimal digits of a natural number, most significant first
(Python `str(n)` for `n >= 0`). -/
def natDigits (n : Nat) : List Nat :=
  if n < 10 then [n + 48]
  else natDigits (n / 10) ++ [n % 10 + 48]
  decreasing_by exact Nat.div_lt_self (by omega) (by omega)

/-- `str(m).encode()` for a Python int `m`. -/
def str_of_int (m : Int) : List Nat :=
  if m < 0 then 45 :: natDigits (-m).toNat else natDigits m.toNat

/-- One step of the digit-run parser inside `int()`: reject any byte that is
not an ASCII digit. -/
def digitStep (acc : Option Nat) (d : Nat) : Option Nat :=
  match acc with
  | none => none
  | some v => if 48 ≤ d ∧ d ≤ 57 then some (v * 10 + (d - 48)) else none

/-- The digit-run parser inside `int()`: `none` when any byte is not an ASCII
digit or the run is empty (Python raises `ValueError`). -/
def parseNatDigits (bytes : List Nat) : Option Nat :=
  if bytes = [] then none else bytes.foldl digitStep (some 0)

/-- `int(bytes.decode())` on the echoed handshake message: an optional leading
`'-'` then decimal digits. -/
def int_of_bytes (bytes : List Nat) : Option Int :=
  match bytes with
  | [] => none
  | d :: rest =>
      if d = 45 then (parseNatDigits rest).map fun v => -(v : Int)
      else (parseNatDigits (d :: rest)).map fun v => (v : Int)

/-- The confirmation step of `QuicServer.set_up_server` (server.py lines
58-60): parse the echoed bytes with `int(number.decode())` (`none` models the
`ValueError` a malformed echo would raise) and compare; the returned flag says
whether `"Problem here..."` was printed.  Nothing else happens: no exception is
raised on a mismatch and no other state changes. -/
def set_up_server (number_of_files : Int) (echo : List Nat) : Option Bool :=
  (int_of_bytes echo).map fun m => decide (¬ m = number_of_files)

/-! ### Concrete inputs used by witnesses and counterexamples -/

/-- A terminal frame of stream 0 followed by a pending data frame of stream 1,
as one receiver worker may pull them off the shared connection. -/
def c5frames : List (Frame × List Nat) :=
  [(⟨0, 0, 0⟩, []), (⟨1, 3, 0⟩, [1, 2, 3])]

/-- An in-order interleaving of two streams' data frames. -/
def c3frames : List (Frame × List Nat) :=
  [(⟨0, 1, 0⟩, [5]), (⟨1, 1, 0⟩, [9]), (⟨0, 1, 1⟩, [6])]

/-- Wire bytes for claim C6: the frame `(0, 3, 0)` with payload `[1, 2, 3]`,
then the terminal frame `(0, 0, 0)` — exactly what `send_file 0 [1,2,3] 3`
puts on the wire. -/
def c6wire : List Nat :=
  pack_iii 0 3 0 ++ [1, 2, 3] ++ pack_iii 0 0 0

/-- A transport schedule for `c6wire` on which `recv(12)` returns 12 bytes but
the payload `recv(3)` returns only 2. -/
def c6sched : List Nat := [12, 2, 12]

/-- Two concrete transfer statistics. -/
def c8stats : List FileStat :=
  [⟨"a.bin", 10, 2, 5, 1, 2, 0⟩, ⟨"b.bin", 30, 3, 10, 1, 3, 1⟩]

/-- One sender task: stream 0, file `[1]`, package size 1. -/
def c7streams : List (Nat × List Nat × Nat) := [(0, [1], 1)]

/-- The final state of the one-sender execution used by the claim C7 witness:
thread 0 has run `send_file` for stream 0, file `[1]`, package size 1 — one
`[header, payload]` critical section and the end-of-file section. -/
def c7final : Sys :=
  ⟨none, [[]],
    [(0, pack_iii 0 1 0), (0, [1]), (0, pack_iii 0 0 0)]⟩

/-! ## Theorems -/

theorem upd_self {α : Type} (f : Nat → α) (t : Nat) (v : α) : upd f t v t = v := by
  simp [upd]

theorem upd_other {α : Type} (f : Nat → α) (t u : Nat) (v : α) (h : u ≠ t) :
    upd f t v u = f u := by
  simp [upd, h]

/-! ### Chunking facts for `QuicServer.send_file` -/

theorem package_zero (file_data : List Nat) (ps : Nat) :
    package file_data ps 0 = file_data.take ps := by
  simp [package]

theorem package_succ (file_data : List Nat) (ps i : Nat) :
    package file_data ps (i + 1) = package (file_data.drop ps) ps i := by
  simp [package, List.drop_drop, Nat.succ_mul, Nat.add_comm]

/-- The chunk loop covers the whole file: `len ≤ num_packages * package_size`. -/
theorem length_le_num_packages_mul (len ps : Nat) (hps : 1 ≤ ps) :
    len ≤ num_packages len ps * ps := by
  unfold num_packages
  rcases Nat.eq_zero_or_pos len with h0 | hlen
  · simp [h0]
  · have h := (Nat.div_le_iff_le_mul_add_pred hps).mp
      (Nat.le_refl ((len + ps - 1) / ps))
    have h2 : ps * ((len + ps - 1) / ps) = ((len + ps - 1) / ps) * ps := Nat.mul_comm _ _
    omega

/-- `num_packages` is the least chunk count covering the file, i.e. exactly
`ceil(total_length / package_size)`. -/
theorem num_packages_min (len ps m : Nat) (hps : 1 ≤ ps) (h : len ≤ m * ps) :
    num_packages len ps ≤ m := by
  unfold num_packages
  rw [Nat.div_le_iff_le_mul_add_pred hps]
  have : ps * m = m * ps := Nat.mul_comm _ _
  omega

/-- Every chunk index below `num_packages` starts strictly inside the file. -/
theorem mul_lt_of_lt_num_packages (len ps i : Nat) (hps : 1 ≤ ps)
    (hi : i < num_packages len ps) : i * ps < len := by
  by_contra hcon
  have : len ≤ i * ps := Nat.le_of_not_lt hcon
  exact Nat.not_lt.mpr (num_packages_min len ps i hps this) hi

theorem package_length_pos (file_data : List Nat) (ps i : Nat) (hps : 1 ≤ ps)
    (hi : i < num_packages file_data.length ps) :
    1 ≤ (package file_data ps i).length := by
  have hlt := mul_lt_of_lt_num_packages file_data.length ps i hps hi
  simp only [package, List.length_take, List.length_drop]
  omega

/-- Concatenating the chunk list reproduces the file (for any chunk count that
covers the file). -/
theorem join_map_package (ps : Nat) :
    ∀ (n : Nat) (file_data : List Nat), file_data.length ≤ n * ps →
      ((List.range n).map (package file_data ps)).flatten = file_data := by
  intro n
  induction n with
  | zero =>
      intro data h
      have : data = [] := List.eq_nil_of_length_eq_zero (by omega)
      simp [this]
  | succ n ih =>
      intro data h
      rw [List.range_succ_eq_map, List.map_cons, List.map_map]
      have hmap : (List.range n).map (package data ps ∘ Nat.succ)
          = (List.range n).map (package (data.drop ps) ps) := by
        apply List.map_congr_left
        intro i _
        simpa using package_succ data ps i
      rw [hmap, package_zero, List.flatten_cons,
        ih (data.drop ps) (by simp only [List.length_drop]; rw [Nat.succ_mul] at h; omega)]
      exact List.take_append_drop ps data

/-- Claim C2: on a file of `total_length` bytes with chunk size `≥ 1`,
`QuicServer.send_file` emits exactly `num_packages = ceil(total_length /
package_size)` data frames (`num_packages` is the least chunk count covering
the file); data frame `i` carries the stream id, the length of chunk `i`, and
sequence number `i`; and exactly one terminal frame `(id_stream, 0, 0)` is
emitted, positioned after all the data frames. -/
theorem send_file_frames (id_stream : Nat) (file_data : List Nat) (ps : Nat)
    (hps : 1 ≤ ps) :
    (dataFrames id_stream file_data ps).length = num_packages file_data.length ps
    ∧ file_data.length ≤ num_packages file_data.length ps * ps
    ∧ (∀ m, file_data.length ≤ m * ps → num_packages file_data.length ps ≤ m)
    ∧ (∀ i, i < num_packages file_data.length ps →
        (dataFrames id_stream file_data ps)[i]?
          = some (⟨id_stream, (package file_data ps i).length, i⟩,
              package file_data ps i))
    ∧ (send_file id_stream file_data ps).getLast? = some (⟨id_stream, 0, 0⟩, [])
    ∧ ((send_file id_stream file_data ps).filter
        fun fp => fp.1.data_length == 0).length = 1 := by
  refine ⟨by simp [dataFrames], length_le_num_packages_mul _ _ hps,
    fun m hm => num_packages_min _ _ m hps hm, ?_, ?_, ?_⟩
  · intro i hi
    simp [dataFrames, List.getElem?_map, List.getElem?_range, hi]
  · simp [send_file]
  · have hnil : (dataFrames id_stream file_data ps).filter
        (fun fp => fp.1.data_length == 0) = [] := by
      rw [List.filter_eq_nil_iff]
      intro fp hfp
      simp only [dataFrames, List.mem_map, List.mem_range] at hfp
      obtain ⟨i, hi, rfl⟩ := hfp
      have := package_length_pos file_data ps i hps hi
      simp only [beq_iff_eq]
      omega
    rw [send_file, List.filter_append, hnil]
    rfl

/-- Witness for claim C2 at a concrete input. -/
theorem send_file_frames_witness :
    (1 : Nat) ≤ 2 ∧
    ((dataFrames 7 [9, 9, 9] 2).length = num_packages 3 2
      ∧ 3 ≤ num_packages 3 2 * 2
      ∧ (∀ m, 3 ≤ m * 2 → num_packages 3 2 ≤ m)
      ∧ (∀ i, i < num_packages 3 2 →
          (dataFrames 7 [9, 9, 9] 2)[i]?
            = some (⟨7, (package [9, 9, 9] 2 i).length, i⟩, package [9, 9, 9] 2 i))
      ∧ (send_file 7 [9, 9, 9] 2).getLast? = some (⟨7, 0, 0⟩, [])
      ∧ ((send_file 7 [9, 9, 9] 2).filter
          fun fp => fp.1.data_length == 0).length = 1) :=
  ⟨by decide, send_file_frames 7 [9, 9, 9] 2 (by decide)⟩

/-- Claim C10: with any chunk size `≥ 1`, every data frame of
`QuicServer.send_file` has payload length `≥ 1` (its header's length field
matching the payload), a frame with length field `0` can only be the terminal
frame, and on an empty file the whole output is the single terminal frame. -/
theorem send_file_no_empty_data (id_stream : Nat) (file_data : List Nat) (ps : Nat)
    (hps : 1 ≤ ps) :
    (∀ fp ∈ dataFrames id_stream file_data ps,
        1 ≤ fp.1.data_length ∧ fp.1.data_length = fp.2.length)
    ∧ (∀ fp ∈ send_file id_stream file_data ps,
        fp.1.data_length = 0 → fp = (⟨id_stream, 0, 0⟩, []))
    ∧ send_file id_stream [] ps = [(⟨id_stream, 0, 0⟩, [])] := by
  have hdata : ∀ fp ∈ dataFrames id_stream file_data ps,
      1 ≤ fp.1.data_length ∧ fp.1.data_length = fp.2.length := by
    intro fp hfp
    simp only [dataFrames, List.mem_map, List.mem_range] at hfp
    obtain ⟨i, hi, rfl⟩ := hfp
    exact ⟨package_length_pos file_data ps i hps hi, rfl⟩
  refine ⟨hdata, ?_, ?_⟩
  · intro fp hfp h0
    rw [send_file, List.mem_append] at hfp
    rcases hfp with hfp | hfp
    · have := (hdata fp hfp).1
      omega
    · simpa using hfp
  · have : num_packages 0 ps = 0 := by
      unfold num_packages
      exact Nat.div_eq_of_lt (by omega)
    simp [send_file, dataFrames, this]

/-- Witness for claim C10 at a concrete input. -/
theorem send_file_no_empty_data_witness :
    (1 : Nat) ≤ 2 ∧
    ((∀ fp ∈ dataFrames 4 [5, 6, 7] 2,
        1 ≤ fp.1.data_length ∧ fp.1.data_length = fp.2.length)
      ∧ (∀ fp ∈ send_file 4 [5, 6, 7] 2,
          fp.1.data_length = 0 → fp = (⟨4, 0, 0⟩, []))
      ∧ send_file 4 [] 2 = [(⟨4, 0, 0⟩, [])]) :=
  ⟨by decide, send_file_no_empty_data 4 [5, 6, 7] 2 (by decide)⟩

/-! ### Codec facts -/

theorem ofBytes4_toBytes4 (x : Int) (h1 : -2147483648 ≤ x) (h2 : x < 2147483648) :
    ofBytes4 ((x % 4294967296).toNat / 16777216 % 256)
      ((x % 4294967296).toNat / 65536 % 256)
      ((x % 4294967296).toNat / 256 % 256)
      ((x % 4294967296).toNat % 256) = x := by
  unfold ofBytes4
  dsimp only
  split <;> omega

/-- Claim C4: for in-range signed 32-bit fields, `struct.pack('!iii', ...)`
produces exactly 12 bytes and `struct.unpack('!iii', ...)` inverts it. -/
theorem pack_unpack_iii (a b c : Int)
    (ha1 : -2147483648 ≤ a) (ha2 : a < 2147483648)
    (hb1 : -2147483648 ≤ b) (hb2 : b < 2147483648)
    (hc1 : -2147483648 ≤ c) (hc2 : c < 2147483648) :
    (pack_iii a b c).length = 12
    ∧ unpack_iii (pack_iii a b c) = some (a, b, c) := by
  constructor
  · rfl
  · show unpack_iii (toBytes4 a ++ toBytes4 b ++ toBytes4 c) = some (a, b, c)
    simp only [toBytes4, List.cons_append, List.nil_append, unpack_iii]
    rw [ofBytes4_toBytes4 a ha1 ha2, ofBytes4_toBytes4 b hb1 hb2,
      ofBytes4_toBytes4 c hc1 hc2]

/-- Witness for claim C4 at a concrete triple (including a negative field). -/
theorem pack_unpack_iii_witness :
    ((-2147483648 : Int) ≤ -1 ∧ (-1 : Int) < 2147483648) ∧
    ((pack_iii (-1) 0 2147483647).length = 12
      ∧ unpack_iii (pack_iii (-1) 0 2147483647) = some (-1, 0, 2147483647)) :=
  ⟨by decide, pack_unpack_iii (-1) 0 2147483647 (by decide) (by decide) (by decide)
    (by decide) (by decide) (by decide)⟩

/-! ### Reassembly: the receiver's commit logic -/

theorem framesOf_map_range (id_stream : Nat) :
    ∀ (n : Nat) (f : Nat → List Nat) (k : Nat),
      framesOf id_stream k ((List.range n).map f)
        = (List.range n).map fun i => (⟨id_stream, (f i).length, k + i⟩, f i) := by
  intro n
  induction n with
  | zero => intro f k; simp [framesOf]
  | succ n ih =>
      intro f k
      rw [List.range_succ_eq_map]
      simp only [List.map_cons, List.map_map, framesOf]
      rw [ih (f ∘ Nat.succ) (k + 1)]
      congr 1
      apply List.map_congr_left
      intro i _
      have h : k + 1 + i = k + (i + 1) := by omega
      simp [Function.comp, h]

theorem commit_unknown (st : RecvState) (f : Frame) (p : List Nat)
    (h : st.file_buffers f.id_stream = none) : commit st f p = some st := by
  simp [commit, h]

theorem commit_known (st : RecvState) (f : Frame) (p buf : List Nat)
    (h : st.file_buffers f.id_stream = some buf) :
    commit st f p
      = if st.curret_package f.id_stream = f.id_package then
          some { curret_package := upd st.curret_package f.id_stream
                   (st.curret_package f.id_stream + 1)
                 file_buffers := upd st.file_buffers f.id_stream
                   (some (buf ++ p)) }
        else none := by
  simp [commit, h]

theorem runCommits_cons_some (f : Frame) (p : List Nat)
    (rest : List (Frame × List Nat)) (st st1 : RecvState)
    (h : commit st f p = some st1) :
    runCommits ((f, p) :: rest) st = runCommits rest st1 := by
  simp [runCommits, h]

theorem runCommits_cons_none (f : Frame) (p : List Nat)
    (rest : List (Frame × List Nat)) (st : RecvState)
    (h : commit st f p = none) :
    runCommits ((f, p) :: rest) st = none := by
  simp [runCommits, h]

/-- Delivering in-order frames of one known stream, starting at the stream's
current expected sequence number, commits them all: the counter advances by
their number and the buffer is extended by their concatenation. -/
theorem runCommits_framesOf (id_stream : Nat) :
    ∀ (pls : List (List Nat)) (st : RecvState) (b : List Nat),
      st.file_buffers id_stream = some b →
      runCommits (framesOf id_stream (st.curret_package id_stream) pls) st
        = some
            { curret_package := upd st.curret_package id_stream
                (st.curret_package id_stream + pls.length)
              file_buffers := upd st.file_buffers id_stream
                (some (b ++ pls.flatten)) } := by
  intro pls
  induction pls with
  | nil =>
      intro st b hb
      simp only [framesOf, runCommits, List.length_nil, List.flatten_nil,
        List.append_nil, Nat.add_zero]
      congr 1
      cases st with
      | mk c fb =>
          simp only [RecvState.mk.injEq]
          constructor
          · funext u
            by_cases hu : u = id_stream <;> simp [upd, hu]
          · funext u
            by_cases hu : u = id_stream <;> simp_all [upd]
  | cons p rest ih =>
      intro st b hb
      have hc : commit st ⟨id_stream, p.length, st.curret_package id_stream⟩ p
          = some ⟨upd st.curret_package id_stream (st.curret_package id_stream + 1),
              upd st.file_buffers id_stream (some (b ++ p))⟩ := by
        rw [commit_known st _ p b hb]
        simp
      have hbuf : (upd st.file_buffers id_stream (some (b ++ p))) id_stream
          = some (b ++ p) := upd_self _ _ _
      have hrec := ih ⟨upd st.curret_package id_stream (st.curret_package id_stream + 1),
        upd st.file_buffers id_stream (some (b ++ p))⟩ (b ++ p) hbuf
      rw [show (RecvState.mk
            (upd st.curret_package id_stream (st.curret_package id_stream + 1))
            (upd st.file_buffers id_stream (some (b ++ p)))).curret_package id_stream
          = st.curret_package id_stream + 1 from upd_self _ _ _] at hrec
      simp only [framesOf]
      rw [runCommits_cons_some _ _ _ _ _ hc, hrec]
      congr 1
      simp only [RecvState.mk.injEq]
      constructor
      · funext u
        by_cases hu : u = id_stream
        · subst hu
          simp only [upd_self, List.length_cons]
          omega
        · simp [upd, hu]
      · funext u
        by_cases hu : u = id_stream
        · subst hu
          simp [upd_self, List.flatten_cons, List.append_assoc]
        · simp [upd, hu]

/-- Claim C1 (round-trip identity): delivering the data frames that
`QuicServer.send_file` produces for one stream, in order, to the commit logic
of `QuicClient.recv_file` leaves that stream's buffer holding exactly the
original file bytes. -/
theorem round_trip (id_stream n ps : Nat) (file_data : List Nat)
    (hps : 1 ≤ ps) (hid : id_stream < n) :
    (runCommits (dataFrames id_stream file_data ps) (recvInit n)).map
        (fun st => st.file_buffers id_stream) = some (some file_data) := by
  have hbuf : (recvInit n).file_buffers id_stream = some [] := by
    simp [recvInit, hid]
  have hframes : dataFrames id_stream file_data ps
      = framesOf id_stream 0
          ((List.range (num_packages file_data.length ps)).map (package file_data ps)) := by
    rw [framesOf_map_range]
    simp [dataFrames]
  have hcur : (0 : Nat) = (recvInit n).curret_package id_stream := rfl
  rw [hframes, hcur, runCommits_framesOf id_stream _ _ [] hbuf]
  have hj := join_map_package ps (num_packages file_data.length ps) file_data
    (length_le_num_packages_mul _ _ hps)
  simp [upd_self, hj]

/-- Witness for claim C1 at a concrete input. -/
theorem round_trip_witness :
    ((1 : Nat) ≤ 2 ∧ 0 < 1) ∧
    (runCommits (dataFrames 0 [1, 2, 3] 2) (recvInit 1)).map
        (fun st => st.file_buffers 0) = some (some [1, 2, 3]) :=
  ⟨by decide, round_trip 0 1 2 [1, 2, 3] (by decide) (by decide)⟩

/-- The general receiver-state invariant behind claim C3, for an arbitrary
starting state: when a frame list commits without spinning forever, then for
every known stream the committed sequence numbers are consecutive from the
stream's starting counter and the buffer grows by the payload concatenation. -/
theorem runCommits_stream_spec :
    ∀ (frames : List (Frame × List Nat)) (st st' : RecvState),
      runCommits frames st = some st' →
      ∀ (s : Nat) (b : List Nat), st.file_buffers s = some b →
        ((frames.filter fun fp => fp.1.id_stream == s).map fun fp => fp.1.id_package)
            = List.range' (st.curret_package s)
                (frames.filter fun fp => fp.1.id_stream == s).length
          ∧ st'.curret_package s
              = st.curret_package s
                  + (frames.filter fun fp => fp.1.id_stream == s).length
          ∧ st'.file_buffers s
              = some (b ++ (((frames.filter fun fp => fp.1.id_stream == s).map
                  fun fp => fp.2).flatten)) := by
  intro frames
  induction frames with
  | nil =>
      intro st st' hrun s b hb
      simp only [runCommits, Option.some.injEq] at hrun
      subst hrun
      simp [hb]
  | cons fp rest ih =>
      obtain ⟨f, p⟩ := fp
      intro st st' hrun s b hb
      rcases hfb : st.file_buffers f.id_stream with _ | buf
      · -- unknown stream: the frame is dropped; in particular it is not `s`
        rw [runCommits_cons_some f p rest st st (commit_unknown st f p hfb)] at hrun
        have hne : f.id_stream ≠ s := by
          intro h; rw [h, hb] at hfb; exact Option.noConfusion hfb
        have hfilter : (((f, p) :: rest :
            List (Frame × List Nat)).filter fun fp => fp.1.id_stream == s)
            = rest.filter fun fp => fp.1.id_stream == s := by
          simp [List.filter_cons, hne]
        rw [hfilter]
        exact ih st st' hrun s b hb
      · by_cases hcond : st.curret_package f.id_stream = f.id_package
        · have hc : commit st f p
              = some ⟨upd st.curret_package f.id_stream
                  (st.curret_package f.id_stream + 1),
                  upd st.file_buffers f.id_stream (some (buf ++ p))⟩ := by
            rw [commit_known st f p buf hfb, if_pos hcond]
          rw [runCommits_cons_some f p rest st _ hc] at hrun
          by_cases hs : f.id_stream = s
          · subst hs
            have hbeq : buf = b := by
              rw [hb] at hfb
              exact (Option.some.inj hfb).symm
            subst hbeq
            have h1 := ih _ st' hrun f.id_stream (buf ++ p) (upd_self _ _ _)
            rw [show (RecvState.mk
                  (upd st.curret_package f.id_stream
                    (st.curret_package f.id_stream + 1))
                  (upd st.file_buffers f.id_stream
                    (some (buf ++ p)))).curret_package f.id_stream
                = st.curret_package f.id_stream + 1 from upd_self _ _ _] at h1
            obtain ⟨ha, hb', hc'⟩ := h1
            have hfilter : (((f, p) :: rest :
                List (Frame × List Nat)).filter fun fp => fp.1.id_stream == f.id_stream)
                = (f, p) :: (rest.filter fun fp => fp.1.id_stream == f.id_stream) := by
              simp [List.filter_cons]
            rw [hfilter]
            refine ⟨?_, ?_, ?_⟩
            · simp only [List.map_cons, List.length_cons, List.range'_succ]
              rw [ha, ← hcond]
            · simp only [List.length_cons]
              omega
            · simp only [List.map_cons, List.flatten_cons] at hc' ⊢
              rw [hc', List.append_assoc]
          · have hne : f.id_stream ≠ s := hs
            have hfilter : (((f, p) :: rest :
                List (Frame × List Nat)).filter fun fp => fp.1.id_stream == s)
                = rest.filter fun fp => fp.1.id_stream == s := by
              simp [List.filter_cons, hne]
            rw [hfilter]
            have hbuf1 : (RecvState.mk
                (upd st.curret_package f.id_stream
                  (st.curret_package f.id_stream + 1))
                (upd st.file_buffers f.id_stream
                  (some (buf ++ p)))).file_buffers s = some b := by
              show (upd st.file_buffers f.id_stream (some (buf ++ p))) s = some b
              rw [upd_other _ _ _ _ (fun h => hne h.symm)]
              exact hb
            have h1 := ih _ st' hrun s b hbuf1
            rw [show (RecvState.mk
                  (upd st.curret_package f.id_stream
                    (st.curret_package f.id_stream + 1))
                  (upd st.file_buffers f.id_stream
                    (some (buf ++ p)))).curret_package s
                = st.curret_package s from
              upd_other _ _ _ _ (fun h => hne h.symm)] at h1
            exact h1
        · have hc : commit st f p = none := by
            rw [commit_known st f p buf hfb, if_neg hcond]
          rw [runCommits_cons_none f p rest st hc] at hrun
          exact absurd hrun (by simp)

/-- Claim C3 (receiver stream-state invariant): starting from the initial
receiver state, whenever a delivered frame list is fully committed, each known
stream's committed sequence numbers are exactly `0, 1, ..., expected-1` in
commit order — each successful commit raised the counter by exactly one from
`0`, with no gap, duplicate or decrease — and the stream's buffer is exactly
the concatenation of those frames' payloads in commit order. -/
theorem recv_stream_state_invariant (frames : List (Frame × List Nat))
    (n s : Nat) (st' : RecvState) (hs : s < n)
    (hrun : runCommits frames (recvInit n) = some st') :
    ((frames.filter fun fp => fp.1.id_stream == s).map fun fp => fp.1.id_package)
        = List.range (st'.curret_package s)
      ∧ st'.file_buffers s
          = some (((frames.filter fun fp => fp.1.id_stream == s).map
              fun fp => fp.2).flatten) := by
  have h := runCommits_stream_spec frames (recvInit n) st' hrun s []
    (by simp [recvInit, hs])
  obtain ⟨h1, h2, h3⟩ := h
  have hcur0 : (recvInit n).curret_package s = 0 := rfl
  constructor
  · rw [h1, h2, hcur0, Nat.zero_add, List.range_eq_range']
  · simpa using h3

/-- Witness for claim C3 at a concrete two-stream interleaving. -/
theorem recv_stream_state_invariant_witness :
    (0 : Nat) < 2 ∧
    (((c3frames.filter fun fp => fp.1.id_stream == 0).map fun fp => fp.1.id_package)
        = List.range 2
      ∧ some [5, 6]
          = some (((c3frames.filter fun fp => fp.1.id_stream == 0).map
              fun fp => fp.2).flatten)) :=
  ⟨by decide, recv_stream_state_invariant c3frames 2 0 _ (by decide) rfl⟩

/-! ### The worker loop's exit conditions -/

/-- Counterexample to claim C5 as stated: a zero-length frame stops the
worker's own loop, not just the stream it belongs to.  Here the worker reads
stream 0's terminal frame first and exits with stream 1's pending data frame
still unread and stream 1's buffer untouched — the worker does not remain able
to service other streams' frames. -/
theorem recv_worker_stops_counterexample :
    recv_file c5frames (recvInit 2)
      = some (recvInit 2, StopReason.terminal, [(⟨1, 3, 0⟩, [1, 2, 3])])
    ∧ ((⟨1, 3, 0⟩, [1, 2, 3]) : Frame × List Nat) ∈ c5frames
    ∧ (recvInit 2).file_buffers 1 = some [] := by
  exact ⟨rfl, by decide, rfl⟩

/-- Claim C5 as amended: a decoded frame with `data_length = 0` — whatever its
sequence number — makes the worker exit its own receive loop at once, leaving
every later frame (any stream's) unread by this worker; otherwise the loop
ends only when the connection returns no header (EOF). -/
theorem recv_worker_terminal_exits_loop (st : RecvState) (f : Frame)
    (p : List Nat) (rest : List (Frame × List Nat)) (h : f.data_length = 0) :
    recv_file ((f, p) :: rest) st = some (st, StopReason.terminal, rest)
    ∧ recv_file [] st = some (st, StopReason.eof, []) := by
  constructor
  · simp [recv_file, h]
  · rfl

/-- Witness for the amended claim C5, with a nonzero sequence number on the
terminal frame. -/
theorem recv_worker_terminal_exits_loop_witness :
    (Frame.data_length ⟨0, 0, 5⟩ = 0) ∧
    (recv_file [(⟨0, 0, 5⟩, []), (⟨1, 3, 0⟩, [1, 2, 3])] (recvInit 2)
        = some (recvInit 2, StopReason.terminal, [(⟨1, 3, 0⟩, [1, 2, 3])])
      ∧ recv_file [] (recvInit 2) = some (recvInit 2, StopReason.eof, [])) :=
  ⟨rfl, recv_worker_terminal_exits_loop (recvInit 2) ⟨0, 0, 5⟩ []
    [(⟨1, 3, 0⟩, [1, 2, 3])] rfl⟩


/-! ### Short reads on the socket (claim C6) -/

/-- Exhibit for claim C6: `c6wire` is exactly what `send_file` puts on the
wire for the file `[1, 2, 3]` sent as one chunk.  On the delivery schedule
`c6sched` — legal for TCP: the payload `recv(3)` returns only 2 bytes — the
worker of `QuicClient.recv_file` commits the short payload `[1, 2]` without
checking its length, desynchronizes, misreads payload and terminal-header
bytes as a fresh header whose length field is `0`, and stops as if the stream
had ended cleanly: the buffer holds `[1, 2]` instead of `[1, 2, 3]` and no
error is reported.  A header truncated at EOF, by contrast, is reported:
`struct.unpack` raises and the worker prints the exception (last conjunct). -/
theorem recv_short_read_corruption :
    c6wire = ((send_file 0 [1, 2, 3] 3).map fun fp =>
        pack_iii fp.1.id_stream fp.1.data_length fp.1.id_package ++ fp.2).flatten
    ∧ (recv_file_bytes c6sched c6wire (recvInit 1)).map
        (fun r => (r.1.file_buffers 0, r.2))
      = some (some [1, 2], StopKind.terminal)
    ∧ some ([1, 2] : List Nat) ≠ some [1, 2, 3]
    ∧ (recv_file_bytes [12] ((pack_iii 0 3 0).take 8) (recvInit 1)).map
        (fun r => r.2) = some StopKind.error := by
  refine ⟨by decide, by decide, by decide, by decide⟩

/-! ### Statistics aggregation (`QuicServer.close`, claim C8) -/

/-- The one-pass accumulator splits into the two sums and the running
maximum. -/
theorem closeAcc_foldl (l : List FileStat) :
    ∀ (a b : Nat) (c : ℚ),
      l.foldl
        (fun acc file_stat =>
          (acc.1 + file_stat.sum_bytes, acc.2.1 + file_stat.num_packages,
            if file_stat.total_time_in_sec > acc.2.2 then file_stat.total_time_in_sec
            else acc.2.2))
        (a, b, c)
      = (a + (l.map fun fs => fs.sum_bytes).sum,
          b + (l.map fun fs => fs.num_packages).sum,
          (l.map fun fs => fs.total_time_in_sec).foldl
            (fun acc t => if t > acc then t else acc) c) := by
  induction l with
  | nil => intro a b c; simp
  | cons fs rest ih =>
      intro a b c
      simp only [List.foldl_cons, List.map_cons, List.sum_cons]
      rw [ih]
      simp only [Prod.mk.injEq]
      exact ⟨by omega, by omega, trivial⟩

theorem closeAcc_components (statistic : List FileStat) :
    closeAcc statistic
      = ((statistic.map (fun fs => fs.sum_bytes)).sum,
          (statistic.map (fun fs => fs.num_packages)).sum,
          (statistic.map (fun fs => fs.total_time_in_sec)).foldl
            (fun acc t => if t > acc then t else acc) 0) := by
  rw [closeAcc, closeAcc_foldl]
  simp

/-- The running maximum never drops below its seed. -/
theorem foldl_runmax_init_le (l : List ℚ) :
    ∀ c : ℚ, c ≤ l.foldl (fun acc t => if t > acc then t else acc) c := by
  induction l with
  | nil => intro c; simp
  | cons x rest ih =>
      intro c
      simp only [List.foldl_cons]
      refine le_trans ?_ (ih (if x > c then x else c))
      split
      · exact le_of_lt (by assumption)
      · exact le_refl c

/-- The running maximum bounds every list element. -/
theorem foldl_runmax_le (l : List ℚ) :
    ∀ (c x : ℚ), x ∈ l → x ≤ l.foldl (fun acc t => if t > acc then t else acc) c := by
  induction l with
  | nil => intro c x hx; exact absurd hx (List.not_mem_nil x)
  | cons y rest ih =>
      intro c x hx
      simp only [List.foldl_cons]
      rcases List.mem_cons.mp hx with rfl | hx
      · refine le_trans ?_ (foldl_runmax_init_le rest (if x > c then x else c))
        split
        · exact le_refl x
        · exact le_of_not_lt (by assumption)
      · exact ih _ x hx

/-- The running maximum is its seed or a list element. -/
theorem foldl_runmax_mem (l : List ℚ) :
    ∀ c : ℚ, l.foldl (fun acc t => if t > acc then t else acc) c = c
      ∨ l.foldl (fun acc t => if t > acc then t else acc) c ∈ l := by
  induction l with
  | nil => intro c; simp
  | cons x rest ih =>
      intro c
      simp only [List.foldl_cons]
      rcases ih (if x > c then x else c) with h | h
      · rw [h]
        by_cases hx : x > c
        · right
          rw [if_pos hx]
          exact List.mem_cons_self x rest
        · left
          rw [if_neg hx]
      · right
        exact List.mem_cons_of_mem x h

/-- If the running maximum equals its seed, the seed bounds the list. -/
theorem foldl_runmax_eq_init (l : List ℚ) :
    ∀ c : ℚ, l.foldl (fun acc t => if t > acc then t else acc) c = c →
      ∀ x ∈ l, x ≤ c := by
  induction l with
  | nil => intro c _ x hx; exact absurd hx (List.not_mem_nil x)
  | cons y rest ih =>
      intro c hc x hx
      simp only [List.foldl_cons] at hc
      have hle : (if y > c then y else c) ≤ c := by
        have h1 := foldl_runmax_init_le rest (if y > c then y else c)
        rw [hc] at h1
        exact h1
      have hyc : y ≤ c := by
        by_cases h : y > c
        · rw [if_pos h] at hle; exact hle
        · exact le_of_not_lt h
      have hseed : (if y > c then y else c) = c := by
        by_cases h : y > c
        · rw [if_pos h] at hle
          exact absurd h (not_lt_of_le hle)
        · rw [if_neg h]
      rw [hseed] at hc
      rcases List.mem_cons.mp hx with rfl | hx
      · exact hyc
      · exact ih c hc x hx

/-- Claim C8: `QuicServer.close` totals bytes and packages as the sums of the
per-stream totals; its `total_time` is the maximum of the per-stream elapsed
times (for at least one stream, elapsed times being nonnegative); each global
average rate is the matching total divided by `total_time`, and `0` when
`total_time ≤ 0`; on the empty statistics list every output is `0`. -/
theorem close_aggregates (statistic : List FileStat)
    (hne : statistic ≠ [])
    (hnn : ∀ fs ∈ statistic, 0 ≤ fs.total_time_in_sec) :
    (close statistic).sum_bytes = (statistic.map (fun fs => fs.sum_bytes)).sum
    ∧ (close statistic).sum_packages = (statistic.map (fun fs => fs.num_packages)).sum
    ∧ (close statistic).total_time ∈ statistic.map (fun fs => fs.total_time_in_sec)
    ∧ (∀ x ∈ statistic.map (fun fs => fs.total_time_in_sec),
        x ≤ (close statistic).total_time)
    ∧ (close statistic).avg_bytes_per_sec
        = (if (close statistic).total_time > 0
            then ((close statistic).sum_bytes : ℚ) / (close statistic).total_time
            else 0)
    ∧ (close statistic).avg_packages_per_sec
        = (if (close statistic).total_time > 0
            then ((close statistic).sum_packages : ℚ) / (close statistic).total_time
            else 0)
    ∧ close ([] : List FileStat) = ⟨0, 0, 0, 0, 0⟩ := by
  have hproj : (close statistic).sum_bytes = (closeAcc statistic).1
      ∧ (close statistic).sum_packages = (closeAcc statistic).2.1
      ∧ (close statistic).total_time = (closeAcc statistic).2.2
      ∧ (close statistic).avg_bytes_per_sec
          = (if (close statistic).total_time > 0
              then ((close statistic).sum_bytes : ℚ) / (close statistic).total_time
              else 0)
      ∧ (close statistic).avg_packages_per_sec
          = (if (close statistic).total_time > 0
              then ((close statistic).sum_packages : ℚ) / (close statistic).total_time
              else 0) := by
    rw [close]
    split
    · simp_all
    · simp_all
  obtain ⟨h1, h2, h3, h4, h5⟩ := hproj
  rw [closeAcc_components] at h1 h2 h3
  simp only at h1 h2 h3
  refine ⟨h1, h2, ?_, ?_, h4, h5, by rfl⟩
  · rw [h3]
    rcases foldl_runmax_mem (statistic.map (fun fs => fs.total_time_in_sec)) 0
      with h | h
    · have hall := foldl_runmax_eq_init
        (statistic.map (fun fs => fs.total_time_in_sec)) 0 h
      rw [h]
      rcases statistic with _ | ⟨fs, rest⟩
      · exact absurd rfl hne
      · have hle := hall fs.total_time_in_sec (by simp)
        have hge := hnn fs (by simp)
        have h0 : fs.total_time_in_sec = 0 := le_antisymm hle hge
        simp [← h0]
    · exact h
  · intro x hx
    rw [h3]
    exact foldl_runmax_le _ 0 x hx

/-- Witness for claim C8 at two concrete statistics. -/
theorem close_aggregates_witness :
    (c8stats ≠ [] ∧ ∀ fs ∈ c8stats, 0 ≤ fs.total_time_in_sec) ∧
    ((close c8stats).sum_bytes = (c8stats.map (fun fs => fs.sum_bytes)).sum
      ∧ (close c8stats).sum_packages = (c8stats.map (fun fs => fs.num_packages)).sum
      ∧ (close c8stats).total_time ∈ c8stats.map (fun fs => fs.total_time_in_sec)
      ∧ (∀ x ∈ c8stats.map (fun fs => fs.total_time_in_sec),
          x ≤ (close c8stats).total_time)
      ∧ (close c8stats).avg_bytes_per_sec
          = (if (close c8stats).total_time > 0
              then ((close c8stats).sum_bytes : ℚ) / (close c8stats).total_time
              else 0)
      ∧ (close c8stats).avg_packages_per_sec
          = (if (close c8stats).total_time > 0
              then ((close c8stats).sum_packages : ℚ) / (close c8stats).total_time
              else 0)
      ∧ close ([] : List FileStat) = ⟨0, 0, 0, 0, 0⟩) :=
  ⟨⟨by simp [c8stats], by decide⟩,
    close_aggregates c8stats (by simp [c8stats]) (by decide)⟩

/-! ### The handshake echo check (claim C9) -/

theorem natDigits_cons (n : Nat) :
    ∃ d t, natDigits n = d :: t ∧ 48 ≤ d ∧ d ≤ 57 := by
  induction n using Nat.strong_induction_on with
  | _ n ih =>
    by_cases h : n < 10
    · exact ⟨n + 48, [], by rw [natDigits, if_pos h], by omega, by omega⟩
    · obtain ⟨d, t, hd, h1, h2⟩ := ih (n / 10) (Nat.div_lt_self (by omega) (by omega))
      exact ⟨d, t ++ [n % 10 + 48], by rw [natDigits, if_neg h, hd]; rfl, h1, h2⟩

theorem foldl_digitStep (n : Nat) :
    ∀ v : Nat, (natDigits n).foldl digitStep (some v)
      = some (v * 10 ^ (natDigits n).length + n) := by
  induction n using Nat.strong_induction_on with
  | _ n ih =>
    intro v
    by_cases h : n < 10
    · rw [natDigits, if_pos h]
      simp only [List.foldl_cons, List.foldl_nil, digitStep, List.length_cons,
        List.length_nil, Nat.zero_add, pow_one]
      rw [if_pos (by omega : 48 ≤ n + 48 ∧ n + 48 ≤ 57)]
      have hsub : n + 48 - 48 = n := by omega
      rw [hsub]
    · rw [natDigits, if_neg h]
      rw [List.foldl_append, ih (n / 10) (Nat.div_lt_self (by omega) (by omega)) v]
      simp only [List.foldl_cons, List.foldl_nil, digitStep, List.length_append,
        List.length_cons, List.length_nil, Nat.zero_add]
      rw [if_pos (by omega : 48 ≤ n % 10 + 48 ∧ n % 10 + 48 ≤ 57)]
      congr 1
      have hsub : n % 10 + 48 - 48 = n % 10 := by omega
      have hdm : 10 * (n / 10) + n % 10 = n := Nat.div_add_mod n 10
      rw [hsub, pow_succ]
      calc (v * 10 ^ (natDigits (n / 10)).length + n / 10) * 10 + n % 10
          = v * (10 ^ (natDigits (n / 10)).length * 10) + (10 * (n / 10) + n % 10) := by
            ring
        _ = v * (10 ^ (natDigits (n / 10)).length * 10) + n := by rw [hdm]

theorem parseNatDigits_natDigits (n : Nat) :
    parseNatDigits (natDigits n) = some n := by
  obtain ⟨d, t, hd, _, _⟩ := natDigits_cons n
  rw [parseNatDigits, if_neg (by rw [hd]; exact List.cons_ne_nil d t)]
  rw [foldl_digitStep n 0]
  simp

theorem int_of_bytes_str_of_int (m : Int) :
    int_of_bytes (str_of_int m) = some m := by
  by_cases hm : m < 0
  · rw [str_of_int, if_pos hm]
    simp only [int_of_bytes, if_pos rfl]
    rw [parseNatDigits_natDigits]
    show some (-(((-m).toNat : Nat) : Int)) = some m
    congr 1
    omega
  · rw [str_of_int, if_neg hm]
    obtain ⟨d, t, hd, h48, _⟩ := natDigits_cons m.toNat
    rw [hd]
    simp only [int_of_bytes]
    rw [if_neg (by omega), ← hd, parseNatDigits_natDigits]
    show some ((m.toNat : Nat) : Int) = some m
    congr 1
    omega

/-- Claim C9: for any echoed integer value, the confirmation step of
`QuicServer.set_up_server` completes normally — it returns a result instead of
raising — and a mismatch with the sent stream count is only flagged for
logging (`"Problem here..."`), nothing more. -/
theorem set_up_server_mismatch_nonfatal (number_of_files m : Int) :
    (set_up_server number_of_files (str_of_int m)).isSome = true
    ∧ set_up_server number_of_files (str_of_int m)
        = some (decide (¬ m = number_of_files)) := by
  rw [set_up_server, int_of_bytes_str_of_int m]
  exact ⟨rfl, rfl⟩

/-! ### Wire atomicity under the shared lock (claim C7) -/

theorem blocksProg_cons (b : List (List Nat)) (bs : List (List (List Nat))) :
    blocksProg (b :: bs)
      = Instr.acquire :: (b.map Instr.send ++ Instr.release :: blocksProg bs) := by
  simp [blocksProg, blockProg]

theorem blocksProg_head (bs : List (List (List Nat))) (i : Instr) (rest : List Instr)
    (h : blocksProg bs = i :: rest) : i = Instr.acquire := by
  cases bs with
  | nil => exact absurd h (by simp [blocksProg])
  | cons b bs' =>
      rw [blocksProg_cons] at h
      injection h with h1 _
      exact h1.symm

theorem blocksProg_eq_nil (bs : List (List (List Nat))) (h : blocksProg bs = []) :
    bs = [] := by
  cases bs with
  | nil => rfl
  | cons b bs' => rw [blocksProg_cons] at h; exact absurd h (by simp)

theorem tagged_append (t : Nat) (b1 b2 : List (List Nat)) :
    tagged t (b1 ++ b2) = tagged t b1 ++ tagged t b2 := by
  simp [tagged]

theorem wireOf_append_block (done : List (Nat × List (List Nat))) (t : Nat)
    (b : List (List Nat)) :
    wireOf (done ++ [(t, b)]) = wireOf done ++ tagged t b := by
  simp [wireOf]

theorem perThread_append (done : List (Nat × List (List Nat))) (t u : Nat)
    (b : List (List Nat)) :
    perThread (done ++ [(t, b)]) u
      = perThread done u ++ (if t = u then [b] else []) := by
  simp only [perThread, List.filter_append, List.map_append]
  by_cases h : t = u <;> simp [h]

theorem take_succ_of_drop_cons {α : Type} (l : List α) (n : Nat) (a : α)
    (r : List α) (h : l.drop n = a :: r) : l.take (n + 1) = l.take n ++ [a] := by
  induction l generalizing n with
  | nil => simp at h
  | cons x xs ih =>
      cases n with
      | zero =>
          simp only [List.drop_zero] at h
          injection h with h1 _
          simp [h1]
      | succ n =>
          have h' : xs.drop n = a :: r := h
          simp only [List.take_succ_cons, List.cons_append]
          rw [ih n h']

theorem drop_succ_of_drop_cons {α : Type} (l : List α) (n : Nat) (a : α)
    (r : List α) (h : l.drop n = a :: r) : l.drop (n + 1) = r := by
  calc l.drop (n + 1) = (l.drop n).drop 1 := by rw [List.drop_drop, Nat.add_comm]
    _ = r := by rw [h]; simp

theorem lt_length_of_getElem?_eq_some {α : Type} (l : List α) (n : Nat) (a : α)
    (h : l[n]? = some a) : n < l.length := by
  by_contra hcon
  rw [List.getElem?_eq_none (Nat.le_of_not_lt hcon)] at h
  exact Option.noConfusion h

theorem getD_of_getElem?_eq_some {α : Type} (l : List α) (n : Nat) (a d : α)
    (h : l[n]? = some a) : l.getD n d = a := by
  simp [List.getD_eq_getElem?_getD, h]

theorem getD_set_self {α : Type} (l : List α) (t : Nat) (v d : α)
    (h : t < l.length) : (l.set t v).getD t d = v := by
  simp [List.getD_eq_getElem?_getD, List.getElem?_set_self h]

theorem getD_set_ne {α : Type} (l : List α) (t u : Nat) (v d : α) (h : t ≠ u) :
    (l.set t v).getD u d = l.getD u d := by
  simp [List.getD_eq_getElem?_getD, List.getElem?_set_ne h]

theorem getD_map_blocksProg (blocks : List (List (List (List Nat)))) (t : Nat) :
    (blocks.map blocksProg).getD t [] = blocksProg (blocks.getD t []) := by
  by_cases h : t < blocks.length
  · have hm : t < (blocks.map blocksProg).length := by simpa using h
    simp [List.getD_eq_getElem?_getD, List.getElem?_eq_getElem h,
      List.getElem?_eq_getElem hm]
  · have h1 : blocks[t]? = none := List.getElem?_eq_none (Nat.le_of_not_lt h)
    have h2 : (blocks.map blocksProg)[t]? = none :=
      List.getElem?_eq_none (by simpa using Nat.le_of_not_lt h)
    simp [List.getD_eq_getElem?_getD, h1, h2, blocksProg]

/-- The invariant holds at start: nothing on the wire, every thread at its
first critical section. -/
theorem inv_init (blocks : List (List (List (List Nat)))) :
    Inv blocks (initSys blocks) := by
  refine ⟨[], fun _ => 0, by simp [initSys], fun t => by simp [perThread], ?_⟩
  left
  refine ⟨rfl, rfl, fun t => ?_⟩
  show (blocks.map blocksProg).getD t [] = blocksProg ((blocks.getD t []).drop 0)
  rw [List.drop_zero]
  exact getD_map_blocksProg blocks t

/-- One interleaving step preserves the invariant. -/
theorem inv_step (blocks : List (List (List (List Nat)))) (s s' : Sys)
    (hst : Step s s') (hinv : Inv blocks s) : Inv blocks s' := by
  obtain ⟨done, k, hlen, hpref, hcase⟩ := hinv
  cases hst with
  | acquire t rest hlock hprog =>
      have ht : t < s.progs.length := lt_length_of_getElem?_eq_some _ _ _ hprog
      have hgd : s.progs.getD t [] = Instr.acquire :: rest :=
        getD_of_getElem?_eq_some _ _ _ _ hprog
      rcases hcase with ⟨_, hwire, hprogs⟩ | ⟨t', _, _, _, hl, _, _, _, _⟩
      · have h1 : blocksProg ((blocks.getD t []).drop (k t))
            = Instr.acquire :: rest := by rw [← hprogs t, hgd]
        cases hdrop : (blocks.getD t []).drop (k t) with
        | nil => rw [hdrop] at h1; exact absurd h1 (by simp [blocksProg])
        | cons cur restBlocks =>
            rw [hdrop, blocksProg_cons] at h1
            injection h1 with _ h2
            refine ⟨done, k, by simpa using hlen, hpref, Or.inr
              ⟨t, [], cur, restBlocks, rfl, by simpa using hdrop, ?_, ?_, ?_⟩⟩
            · show (s.progs.set t rest).getD t []
                = cur.map Instr.send ++ Instr.release :: blocksProg restBlocks
              rw [getD_set_self _ _ _ _ ht, ← h2]
            · show s.wire = wireOf done ++ tagged t []
              rw [hwire]
              simp [tagged]
            · intro u hu
              show (s.progs.set t rest).getD u [] = _
              rw [getD_set_ne _ _ _ _ _ (fun h => hu h.symm)]
              exact hprogs u
      · rw [hl] at hlock
        exact Option.noConfusion hlock
  | send t c rest hprog =>
      have ht : t < s.progs.length := lt_length_of_getElem?_eq_some _ _ _ hprog
      have hgd : s.progs.getD t [] = Instr.send c :: rest :=
        getD_of_getElem?_eq_some _ _ _ _ hprog
      rcases hcase with ⟨_, _, hprogs⟩ |
        ⟨t', sent, todo, restB, hl, hdrop, hprogt, hwire, hothers⟩
      · have h1 : blocksProg ((blocks.getD t []).drop (k t))
            = Instr.send c :: rest := by rw [← hprogs t, hgd]
        exact absurd (blocksProg_head _ _ _ h1) (by simp)
      · by_cases htt : t = t'
        · subst htt
          rw [hgd] at hprogt
          cases todo with
          | nil => simp at hprogt
          | cons c0 todo' =>
              simp only [List.map_cons, List.cons_append] at hprogt
              injection hprogt with h1 h2
              have hc0 : c0 = c := by injection h1 with h; exact h.symm
              subst hc0
              refine ⟨done, k, by simpa using hlen, hpref, Or.inr
                ⟨t, sent ++ [c0], todo', restB, hl, ?_, ?_, ?_, ?_⟩⟩
              · rw [hdrop]
                simp [List.append_assoc]
              · show (s.progs.set t rest).getD t [] = _
                rw [getD_set_self _ _ _ _ ht, h2]
              · show s.wire ++ [(t, c0)] = wireOf done ++ tagged t (sent ++ [c0])
                rw [hwire, tagged_append, List.append_assoc]
                rfl
              · intro u hu
                show (s.progs.set t rest).getD u [] = _
                rw [getD_set_ne _ _ _ _ _ (fun h => hu h.symm)]
                exact hothers u hu
        · have h1 : blocksProg ((blocks.getD t []).drop (k t))
              = Instr.send c :: rest := by rw [← hothers t htt, hgd]
          exact absurd (blocksProg_head _ _ _ h1) (by simp)
  | release t rest hprog =>
      have ht : t < s.progs.length := lt_length_of_getElem?_eq_some _ _ _ hprog
      have hgd : s.progs.getD t [] = Instr.release :: rest :=
        getD_of_getElem?_eq_some _ _ _ _ hprog
      rcases hcase with ⟨_, _, hprogs⟩ |
        ⟨t', sent, todo, restB, hl, hdrop, hprogt, hwire, hothers⟩
      · have h1 : blocksProg ((blocks.getD t []).drop (k t))
            = Instr.release :: rest := by rw [← hprogs t, hgd]
        exact absurd (blocksProg_head _ _ _ h1) (by simp)
      · by_cases htt : t = t'
        · subst htt
          rw [hgd] at hprogt
          cases todo with
          | cons c0 todo' => simp at hprogt
          | nil =>
              simp only [List.map_nil, List.nil_append] at hprogt
              injection hprogt with _ h2
              simp only [List.append_nil] at hdrop
              refine ⟨done ++ [(t, sent)], upd k t (k t + 1),
                by simpa using hlen, ?_, Or.inl ⟨rfl, ?_, ?_⟩⟩
              · intro u
                rw [perThread_append]
                by_cases hu : u = t
                · subst hu
                  rw [if_pos rfl, hpref u, upd_self,
                    take_succ_of_drop_cons _ _ _ _ hdrop]
                · rw [if_neg (fun h => hu h.symm), hpref u,
                    upd_other _ _ _ _ hu]
                  simp
              · rw [wireOf_append_block, hwire]
              · intro u
                by_cases hu : u = t
                · subst hu
                  show (s.progs.set u rest).getD u [] = _
                  rw [getD_set_self _ _ _ _ ht, upd_self,
                    drop_succ_of_drop_cons _ _ _ _ hdrop, h2]
                · show (s.progs.set t rest).getD u [] = _
                  rw [getD_set_ne _ _ _ _ _ (fun h => hu h.symm),
                    upd_other _ _ _ _ hu]
                  exact hothers u hu
        · have h1 : blocksProg ((blocks.getD t []).drop (k t))
              = Instr.release :: rest := by rw [← hothers t htt, hgd]
          exact absurd (blocksProg_head _ _ _ h1) (by simp)

theorem inv_steps (blocks : List (List (List (List Nat)))) (s s' : Sys)
    (h : Steps s s') (hinv : Inv blocks s) : Inv blocks s' := by
  induction h with
  | refl => exact hinv
  | tail _ hstep ih => exact inv_step blocks _ _ hstep ih

theorem progs_empty_of_all (l : List (List Instr))
    (h : l.all List.isEmpty = true) (t : Nat) : l.getD t [] = [] := by
  by_cases ht : t < l.length
  · have hmem := List.all_eq_true.mp h l[t] (l.getElem_mem ht)
    have hnil : l[t] = [] := List.isEmpty_iff.mp hmem
    simp [List.getD_eq_getElem?_getD, List.getElem?_eq_getElem ht, hnil]
  · simp [List.getD_eq_getElem?_getD, List.getElem?_eq_none (Nat.le_of_not_lt ht)]

/-- Any complete execution of the lock machine writes the wire as a
concatenation of whole critical sections: per thread, exactly its blocks, in
program order, each block contiguous on the wire. -/
theorem steps_whole_blocks (blocks : List (List (List (List Nat)))) (s : Sys)
    (hs : Steps (initSys blocks) s) (hdone : ∀ t, s.progs.getD t [] = []) :
    ∃ done : List (Nat × List (List Nat)),
      s.wire = wireOf done ∧ ∀ t, perThread done t = blocks.getD t [] := by
  obtain ⟨done, k, _, hpref, hcase⟩ := inv_steps blocks _ s hs (inv_init blocks)
  rcases hcase with ⟨_, hwire, hprogs⟩ |
    ⟨t, sent, todo, restB, _, _, hprogt, _, _⟩
  · refine ⟨done, hwire, fun t => ?_⟩
    have h1 : blocksProg ((blocks.getD t []).drop (k t)) = [] := by
      rw [← hprogs t, hdone t]
    have h2 := blocksProg_eq_nil _ h1
    have h3 : (blocks.getD t []).length ≤ k t := List.drop_eq_nil_iff.mp h2
    rw [hpref t, List.take_of_length_le h3]
  · rw [hdone t] at hprogt
    exact absurd hprogt.symm (by simp)

/-- Claim C7 (wire atomicity): run any number of concurrent `send_file` tasks
— thread `t` sending stream `streams[t]` — over the shared connection, each
frame written as `with self.lock: send(header); send(package)` (server.py
lines 88-90, 97-98).  In every complete interleaving, the wire is a
concatenation of whole critical sections: each thread's completed sections
are exactly its `sendFileBlocks` — `[header, payload]` for every data frame,
`[header]` for the terminal frame — in order, never interleaved mid-frame by
another thread's bytes.  (`steps_whole_blocks` holds for arbitrary
well-bracketed block lists, which also covers the receiver workers' guarded
header-then-payload reads, client.py lines 74-89.) -/
theorem send_file_wire_atomic (streams : List (Nat × List Nat × Nat)) (s : Sys)
    (hs : Steps
      (initSys (streams.map fun x => sendFileBlocks x.1 x.2.1 x.2.2)) s)
    (hdone : s.progs.all List.isEmpty = true) :
    ∃ done : List (Nat × List (List Nat)),
      s.wire = wireOf done
      ∧ ∀ t, perThread done t
          = (streams.map fun x => sendFileBlocks x.1 x.2.1 x.2.2).getD t [] :=
  steps_whole_blocks _ s hs (progs_empty_of_all _ hdone)

/-- Witness for claim C7: a seven-step complete execution of one `send_file`
task (stream 0, file `[1]`, package size 1). -/
theorem send_file_wire_atomic_witness :
    (Steps (initSys (c7streams.map fun x => sendFileBlocks x.1 x.2.1 x.2.2))
        c7final
      ∧ c7final.progs.all List.isEmpty = true)
    ∧ ∃ done : List (Nat × List (List Nat)),
        c7final.wire = wireOf done
        ∧ ∀ t, perThread done t
            = (c7streams.map fun x => sendFileBlocks x.1 x.2.1 x.2.2).getD t [] := by
  have hsteps : Steps
      (initSys (c7streams.map fun x => sendFileBlocks x.1 x.2.1 x.2.2)) c7final := by
    refine Relation.ReflTransGen.head (Step.acquire _ 0 _ rfl rfl) ?_
    refine Relation.ReflTransGen.head (Step.send _ 0 _ _ rfl) ?_
    refine Relation.ReflTransGen.head (Step.send _ 0 _ _ rfl) ?_
    refine Relation.ReflTransGen.head (Step.release _ 0 _ rfl) ?_
    refine Relation.ReflTransGen.head (Step.acquire _ 0 _ rfl rfl) ?_
    refine Relation.ReflTransGen.head (Step.send _ 0 _ _ rfl) ?_
    refine Relation.ReflTransGen.head (Step.release _ 0 _ rfl) ?_
    exact Relation.ReflTransGen.refl
  exact ⟨⟨hsteps, rfl⟩,
    send_file_wire_atomic c7streams c7final hsteps rfl⟩

end QuicMF
